import Mathlib

/-!
Verification development for the `stereovision` UI utilities
(`stereovision/ui_utils.py`): stereo image discovery (`find_files`),
the chessboard calibration pipeline (`calibrate_folder`), and the
interactive block-matcher tuner (`BMTuner`) with its temporal disparity
smoothing, validity masking, parameter history and settings reporting.

Python lists become Lean `List`s, numpy arrays become `List ℚ` (pixel
values, flattened) and `List Bool` (validity masks); elementwise numpy
operations become `List.zipWith`/`List.map`.  The block matcher, the
OpenCV rendering primitives and the stereo calibrator are external
collaborators of this module and appear as oracle parameters/fields.
-/

namespace SV

/-! ## String helpers (Python semantics on character lists) -/

/-- Python `s.startswith(p)`. -/
def startswith (p s : String) : Bool := s.data.take p.data.length == p.data

/-- Lexicographic comparison of character lists, as Python compares strings. -/
def charListLt : List Char → List Char → Bool
  | _, [] => false
  | [], _ :: _ => true
  | a :: as, b :: bs => if a < b then true else if b < a then false else charListLt as bs

/-- Python string `<`. -/
def strLt (a b : String) : Bool := charListLt a.data b.data

/-- Python slicing `s[n:]`. -/
def strDrop (s : String) (n : Nat) : String := ⟨s.data.drop n⟩

/-- Stable insertion of an element into an ascending list (helper for `sortAsc`). -/
def insertAsc (a : String) : List String → List String
  | [] => [a]
  | b :: l => if strLt b a then b :: insertAsc a l else a :: b :: l

/-- Python `list.sort()`: stable ascending sort. -/
def sortAsc (l : List String) : List String := l.foldr insertAsc []

/-- Python `list.insert(n, a)` (for `0 ≤ n`): insert before index `n`,
append when `n` is past the end. -/
def pyInsert (l : List α) (n : Nat) (a : α) : List α := l.take n ++ a :: l.drop n

/-! ## find_files (ui_utils.py lines 68-76)

The folder listing (`os.listdir`) is an oracle argument; `os.path.join`
is folder ++ "/" ++ name. -/

/-- Embedding of `find_files`: keep the names starting with "left", sort
them, then for `i in range(len(files))` insert `"right" + files[i*2][4:]`
at position `i*2+1` (reading `files[i*2]` from the partially built list,
as the Python loop does), finally join every name with the folder. -/
def find_files (folder : String) (listing : List String) : List String :=
  let files0 := sortAsc (listing.filter (fun i => startswith "left" i))
  let files := (List.range files0.length).foldl
    (fun fs i => pyInsert fs (i * 2 + 1) ("right" ++ strDrop (fs.getD (i * 2) "") 4)) files0
  files.map (fun filename => folder ++ "/" ++ filename)

/-! ## Elementwise numpy operations on flattened maps -/

/-- Disparity map: flattened pixel values. -/
abbrev DMap := List ℚ

/-- Validity mask: flattened booleans. -/
abbrev VMask := List Bool

/-- Elementwise `numpy.logical_and`. -/
def np_logical_and (a b : VMask) : VMask := List.zipWith (fun x y => x && y) a b

/-- Python `reduce(numpy.logical_and, vs)`: fold from the left with the
head as initial value (the source only calls it on a nonempty list). -/
def reduce_and : List VMask → VMask
  | [] => []
  | v :: vs => vs.foldl np_logical_and v

/-- Elementwise addition of two maps. -/
def np_add (a b : DMap) : DMap := List.zipWith (fun x y => x + y) a b

/-- Elementwise sum of a list of maps (`numpy.sum(ds, axis=0)`). -/
def np_sum_maps : List DMap → DMap
  | [] => []
  | d :: ds => ds.foldl np_add d

/-- Elementwise `numpy.mean(ds, axis=0)`: sum divided by the number of maps. -/
def np_mean_maps (ds : List DMap) : DMap :=
  (np_sum_maps ds).map (fun x => x / (ds.length : ℚ))

/-- Elementwise population variance `numpy.var(ds, axis=0)`: the mean of
the squared deviations from the elementwise mean. -/
def np_var_maps (ds : List DMap) : DMap :=
  np_mean_maps (ds.map (fun d => List.zipWith (fun x mu => (x - mu) ^ 2) d (np_mean_maps ds)))

/-- Elementwise test `numpy.std(ds, axis=0) < t`.  `numpy.std` is the
square root of the population variance, and for a threshold `t > 0` one
has `sqrt v < t ↔ v < t ^ 2` (lemma `var_lt_sq_iff_sqrt_lt` below), so
the test is encoded decidably on the variance. -/
def np_std_lt (ds : List DMap) (t : ℚ) : VMask :=
  (np_var_maps ds).map (fun v => decide (v < t ^ 2))

/-! ## Temporal smoothing (`BMTuner._get_smoothed_disparity`, lines 280-288)

A slot of `last_disparities` is `(None, None)` or a `(disparity,
validity)` pair, modelled as `Option (DMap × VMask)`. -/

/-- Embedding of `_get_smoothed_disparity`: over the populated slots only,
AND the raw validity masks, AND the result with the elementwise test
`std < accepted_deviation`, and take the elementwise mean of the maps. -/
def get_smoothed_disparity (slots : List (Option (DMap × VMask)))
    (accepted_deviation : ℚ) : DMap × VMask :=
  let validities := (slots.filterMap id).map (fun dv => dv.2)
  let validity := reduce_and validities
  let disparities := (slots.filterMap id).map (fun dv => dv.1)
  let deviation_validity := np_std_lt disparities accepted_deviation
  let validity2 := np_logical_and validity deviation_validity
  let mean := np_mean_maps disparities
  (mean, validity2)

/-! ## Raw per-frame validity (`_update_disparity_map_no_wait`, lines 230-231) -/

/-- Machine epsilon of `numpy.float32`, i.e. `2 ^ (-23)`. -/
def eps32 : ℚ := 1 / 2 ^ 23

/-- Embedding of `validity_bool = disparity > minDisparity - 1 + eps`. -/
def raw_validity (minDisparity : Int) (disparity : DMap) : VMask :=
  disparity.map (fun x => decide ((minDisparity : ℚ) - 1 + eps32 < x))

/-! ## Pixelwise statistics (specification side)

These definitions follow the spec's wording "pixel-wise arithmetic mean /
standard deviation across the populated maps" and are compared with the
elementwise pipeline above. -/

/-- Values of pixel `i` across a list of maps. -/
def pixelVals (ds : List DMap) (i : Nat) : List ℚ := ds.map (fun d => d.getD i 0)

/-- Arithmetic mean at pixel `i` across the maps. -/
def pixelMean (ds : List DMap) (i : Nat) : ℚ :=
  (pixelVals ds i).sum / (ds.length : ℚ)

/-- Population variance at pixel `i` across the maps. -/
def pixelVar (ds : List DMap) (i : Nat) : ℚ :=
  ((pixelVals ds i).map (fun x => (x - pixelMean ds i) ^ 2)).sum / (ds.length : ℚ)

/-! ## ParameterConstraint -/

/-- Modelled from the spec: the `ParameterConstraint` class (referenced by
`ui_utils.py` via `constraint.actual_value`, `constraint.trackbar_value`
and `constraint.trackbar_max` but living in the block-matcher module,
which is not part of this source tree).  Per spec §3/§4.1 it maps a
bounded raw trackbar value to an actual parameter value and back. -/
structure ParameterConstraint where
  actual_value : Nat → Int
  trackbar_value : Int → Nat
  trackbar_max : Nat

/-- Modelled from the spec: an affine constraint family `raw ↦ a * raw + b`
covering the spec's examples (odd-only window sizes: step 2, offset 1;
power-of-two increments: step 16). -/
def linear_constraint (a : Nat) (b : Int) (mx : Nat) : ParameterConstraint where
  actual_value := fun r => (a : Int) * r + b
  trackbar_value := fun v => ((v - b) / (a : Int)).toNat
  trackbar_max := mx

/-- Modelled from the spec: odd-only window size constraint (values 1, 3, 5, …). -/
def odd_window_constraint : ParameterConstraint := linear_constraint 2 1 50

/-- Modelled from the spec: power-of-two increment constraint (values 16, 32, 48, …). -/
def step16_constraint : ParameterConstraint := linear_constraint 16 16 16

/-! ## Calibration pipeline (`calibrate_folder`, lines 79-121)

The external `StereoCalibrator` is abstracted by a corner-detection
oracle `detect l r` telling whether `add_corners` succeeds on the pair
`(l, r)` or raises `ChessboardNotFoundError`.  The observable behaviour
of one run is its event trace. -/

/-- Observable events of one `calibrate_folder` run. -/
inductive CalEvent where
  | addCorners (l r : String)
  | failed (l r : String)
  | calibrate
  | check
  | exportCal
deriving DecidableEq

/-- Event is a reported per-pair detection failure. -/
def isFailed : CalEvent → Bool
  | .failed _ _ => true
  | _ => false

/-- Event is a successful `add_corners` observation. -/
def isAdd : CalEvent → Bool
  | .addCorners _ _ => true
  | _ => false

/-- Group a flat file list into (left, right) pairs, as the loop's
`left, right = args.input_files[:2]` does; `none` models the fatal
unpacking error on an odd-length list. -/
def toPairs : List String → Option (List (String × String))
  | [] => some []
  | _ :: [] => none
  | l :: r :: rest => (toPairs rest).map (fun ps => (l, r) :: ps)

/-- Embedding of the `while args.input_files:` loop: each pair yields an
`addCorners` event, or a `failed` event when the calibrator signals
`ChessboardNotFoundError`; the loop always continues with the rest. -/
def process_pairs (detect : String → String → Bool) : List String → Option (List CalEvent)
  | [] => some []
  | _ :: [] => none
  | l :: r :: rest =>
    (process_pairs detect rest).map
      (fun evs => (if detect l r then CalEvent.addCorners l r else CalEvent.failed l r) :: evs)

/-- Embedding of `calibrate_folder`: after the per-pair loop the code
unconditionally calls `calibrate_cameras`, `check_calibration` and
`calibration.export`. -/
def calibrate_folder (detect : String → String → Bool) (files : List String) :
    Option (List CalEvent) :=
  (process_pairs detect files).map
    (fun evs => evs ++ [CalEvent.calibrate, CalEvent.check, CalEvent.exportCal])

/-- Expected per-pair trace, written directly over the pair list. -/
def pairTrace (detect : String → String → Bool) (pairs : List (String × String)) :
    List CalEvent :=
  pairs.map (fun pr => if detect pr.1 pr.2 then CalEvent.addCorners pr.1 pr.2
                       else CalEvent.failed pr.1 pr.2)

/-! ## The tuner (`BMTuner`)

The block matcher is abstracted by its current parameter values
(`bm : String → Int`), a validation oracle (`valid p v`: does
`setattr` raise `BadBlockMatcherArgumentError`?) and a disparity oracle
(`get_disparity`).  Display and blocking are observable through the
counters `displayCount`/`waitCount` and the masks actually applied to
the two panels. -/

structure Tuner where
  /-- Names from `block_matcher.parameter_names()`. -/
  params : List String
  /-- Current parameter values on the block matcher. -/
  bm : String → Int
  /-- Modelled from the spec §6: a parameter write fails with a
  bad-argument signal iff validation rejects it; the write is applied
  only when validation passes. -/
  valid : String → Int → Bool
  /-- The `bm_settings` history dictionary. -/
  bm_settings : String → List Int
  /-- Identifier of the current image pair. -/
  pair : Nat
  /-- Disparity oracle: `block_matcher.get_disparity` on a given pair. -/
  get_disparity : Nat → DMap
  minDisparity : Int
  time_smoothing_window : Nat
  last_disparities : List (Option (DMap × VMask))
  next_disparity_index : Nat
  accepted_deviation : ℚ
  /-- Field `self.disparity`. -/
  disparity : DMap
  /-- Field `self.validity`. -/
  validity : VMask
  /-- Mask applied to the raw disparity panel in the last display. -/
  last_raw_mask : VMask
  /-- Mask applied to the smoothed panel in the last display
  (`none` when no smoothed panel was rendered). -/
  last_smoothed_mask : Option VMask
  /-- Number of `cv2.imshow` redisplays performed. -/
  displayCount : Nat
  /-- Number of blocking `cv2.waitKey()` calls performed. -/
  waitCount : Nat

/-- Embedding of `_save_bm_state`: append the current value of every
parameter to its history. -/
def save_bm_state (t : Tuner) : Tuner :=
  { t with bm_settings := fun q =>
      if q ∈ t.params then t.bm_settings q ++ [t.bm q] else t.bm_settings q }

/-- Embedding of `_update_disparity_map_no_wait` (lines 221-266): compute
the disparity and its raw validity mask, store them in the ring buffer
slot at the cursor and advance the cursor; when the smoothing window is
larger than 1, compute the smoothed map, store it with the smoothed
validity in `self.disparity`/`self.validity` — but mask the smoothed
panel with `validity_bool` (the raw mask of the newest frame), exactly
as source line 249 `validity_int = (validity_bool * 255)` does; finally
redisplay without waiting. -/
def update_disparity_map_no_wait (t : Tuner) : Tuner :=
  let disparity := t.get_disparity t.pair
  let validity_bool := raw_validity t.minDisparity disparity
  let slots := t.last_disparities.set t.next_disparity_index (some (disparity, validity_bool))
  let nexti := (t.next_disparity_index + 1) % t.time_smoothing_window
  if 1 < t.time_smoothing_window then
    let sm := get_smoothed_disparity slots t.accepted_deviation
    { t with last_disparities := slots, next_disparity_index := nexti,
             disparity := sm.1, validity := sm.2,
             last_raw_mask := validity_bool,
             last_smoothed_mask := some validity_bool,
             displayCount := t.displayCount + 1 }
  else
    { t with last_disparities := slots, next_disparity_index := nexti,
             disparity := disparity, validity := validity_bool,
             last_raw_mask := validity_bool,
             last_smoothed_mask := none,
             displayCount := t.displayCount + 1 }

/-- Embedding of `_set_value` (lines 144-151): try the write on the block
matcher; on a bad-argument signal report it and return (no update), else
recompute and redisplay the disparity map without waiting. -/
def set_value (t : Tuner) (p : String) (v : Int) : Tuner :=
  if t.valid p v then
    update_disparity_map_no_wait { t with bm := fun q => if q = p then v else t.bm q }
  else t

/-- Embedding of `tune_pair` (lines 290-297): record the state, replace
the pair, update the map, and block for a key press when `wait_key`. -/
def tune_pair (t : Tuner) (pr : Nat) (wait_key : Bool) : Tuner :=
  let t1 := save_bm_state t
  let t2 := update_disparity_map_no_wait { t1 with pair := pr }
  if wait_key then { t2 with waitCount := t2.waitCount + 1 } else t2

/-! ## Settings report (`report_settings`, lines 299-331)

The Python dictionary `value_frequency` is keyed by the FREQUENCY
(`value_frequency[settings_list.count(value)] = value`), so two distinct
values with the same count share one dictionary slot.  It is modelled as
an association list from frequency to value with Python's replace-or-add
assignment.  `list(set(...))` enumerates the distinct values in an
implementation-defined order, modelled by `List.dedup`. -/

/-- Python `d[k] = v` on an association list: replace the binding in
place when the key exists, append it otherwise. -/
def upsert (m : List (Nat × Int)) (k : Nat) (v : Int) : List (Nat × Int) :=
  if m.any (fun e => e.1 = k) then m.map (fun e => if e.1 = k then (k, v) else e)
  else m ++ [(k, v)]

/-- Python `d[k]` for a key known to be present (0 otherwise). -/
def dlookup (m : List (Nat × Int)) (k : Nat) : Int :=
  ((m.find? (fun e => e.1 = k)).map (fun e => e.2)).getD 0

/-- Python `list(set(l))` (enumeration order implementation-defined). -/
def uniqueValues (l : List Int) : List Int := l.dedup

/-- Embedding of the `for value in unique_values:
value_frequency[settings_list.count(value)] = value` loop. -/
def value_frequency (l : List Int) : List (Nat × Int) :=
  (uniqueValues l).foldl (fun m v => upsert m (l.count v) v) []

/-- Descending insertion (helper for `sortDesc`). -/
def insertDesc (a : Nat) : List Nat → List Nat
  | [] => [a]
  | b :: l => if a < b then b :: insertDesc a l else a :: b :: l

/-- Python `keys.sort(reverse=True)`. -/
def sortDesc (l : List Nat) : List Nat := l.foldr insertDesc []

/-- Table rows produced by `report_settings` from the counted list: one
row `(value, frequency)` per key of `value_frequency`, frequencies
sorted descending, the shown value looked up by frequency. -/
def report_rows (l : List Int) : List (Int × Nat) :=
  let vf := value_frequency l
  let freqs := sortDesc (vf.map (fun e => e.1))
  freqs.map (fun f => (dlookup vf f, f))

/-- Embedding of `report_settings`: append the current state to every
parameter's history, build the table from `bm_settings[parameter][1:]`,
then pop the newest entry from every parameter's history. -/
def report_settings (t : Tuner) (p : String) : List (Int × Nat) × Tuner :=
  let t1 := save_bm_state t
  let rows := report_rows ((t1.bm_settings p).drop 1)
  (rows,
   { t1 with bm_settings := fun q =>
       if q ∈ t1.params then (t1.bm_settings q).dropLast else t1.bm_settings q })

/-! ## Tuning sessions as operation sequences -/

/-- External control events driving one tuning session. -/
inductive Op where
  | set (p : String) (v : Int)
  | tune (pr : Nat) (wait_key : Bool)
  | report (p : String)

/-- Dispatch one control event. -/
def step (t : Tuner) : Op → Tuner
  | .set p v => set_value t p v
  | .tune pr wait_key => tune_pair t pr wait_key
  | .report p => (report_settings t p).2

/-- Run a session from a state through a list of events. -/
def run (t : Tuner) (ops : List Op) : Tuner := ops.foldl step t

/-- Session in which `tune_pair` is called `k` times, the value recorded
for `p` at the `j`-th call being `v j` (each call preceded by the
parameter write that chooses that value). -/
def scenario (p : String) (v : Nat → Int) : Nat → List Op
  | 0 => []
  | k + 1 => scenario p v k ++ [Op.set p (v k), Op.tune 0 false]

/-! ## General lemmas -/

/-- Justification of the decidable encoding used in `np_std_lt`:
comparing the standard deviation (the real square root of the variance)
with a positive threshold is comparing the variance with its square. -/
lemma var_lt_sq_iff_sqrt_lt (v t : ℚ) (ht : 0 < t) :
    v < t ^ 2 ↔ Real.sqrt (v : ℝ) < (t : ℝ) := by
  rw [Real.sqrt_lt' (show (0 : ℝ) < (t : ℝ) by exact_mod_cast ht)]
  constructor
  · intro h
    exact_mod_cast h
  · intro h
    exact_mod_cast h

/-- A list permuted from a two-element list is one of its two arrangements. -/
lemma perm_pair {α : Type} {a b : α} {l : List α} (h : l.Perm [a, b]) :
    l = [a, b] ∨ l = [b, a] := by
  rcases l with _ | ⟨x, _ | ⟨y, _ | ⟨z, l⟩⟩⟩
  · exact absurd h.length_eq (by simp)
  · exact absurd h.length_eq (by simp)
  · have hx : x ∈ [a, b] := h.mem_iff.mp (by simp)
    rcases List.mem_pair.mp hx with rfl | rfl
    · left
      have h2 : [y].Perm [b] := h.cons_inv
      simp [List.perm_singleton.mp h2]
    · right
      have h2 : [y].Perm [a] := (h.trans (List.Perm.swap _ _ [])).cons_inv
      simp [List.perm_singleton.mp h2]
  · exact absurd h.length_eq (by simp)

/-! ## C9: find_files -/

/-- C9: for every folder whose listing contains exactly the files
`left01.png`, `right01.png`, `left02.png`, `right02.png` (in any listing
order), `find_files` returns the four paths joined with the folder in
the interleaved order left01, right01, left02, right02. -/
theorem find_files_interleaved_c9 (listing : List String)
    (h : listing.Perm ["left01.png", "right01.png", "left02.png", "right02.png"]) :
    find_files "cal" listing =
      ["cal/left01.png", "cal/right01.png", "cal/left02.png", "cal/right02.png"] := by
  have hf : (listing.filter (fun i => startswith "left" i)).Perm
      ["left01.png", "left02.png"] := by
    have := h.filter (fun i => startswith "left" i)
    simpa using this
  rcases perm_pair hf with hc | hc <;>
    · simp only [find_files, hc]
      decide

/-- Witness for C9 at a concrete listing order. -/
theorem find_files_interleaved_c9_witness :
    (["right02.png", "left02.png", "right01.png", "left01.png"] : List String).Perm
        ["left01.png", "right01.png", "left02.png", "right02.png"] ∧
      find_files "cal" ["right02.png", "left02.png", "right01.png", "left01.png"] =
        ["cal/left01.png", "cal/right01.png", "cal/left02.png", "cal/right02.png"] :=
  ⟨by decide, find_files_interleaved_c9 _ (by decide)⟩

/-! ## C5: ParameterConstraint raw-domain round trip -/

/-- C5: for every constraint of the modelled affine family (step `a ≥ 1`,
offset `b`) and every raw control value `r` in `[0, maxRaw]`, converting
the raw value to the actual parameter value and back yields `r` again. -/
theorem constraint_round_trip_c5 (a : Nat) (b : Int) (mx : Nat) (r : Nat)
    (ha : 0 < a) (_hr : r ≤ mx) :
    (linear_constraint a b mx).trackbar_value
      ((linear_constraint a b mx).actual_value r) = r := by
  simp only [linear_constraint]
  have hane : (a : Int) ≠ 0 := by exact_mod_cast Nat.pos_iff_ne_zero.mp ha
  rw [add_sub_cancel_right, Int.mul_ediv_cancel_left _ hane, Int.toNat_natCast]

/-- Witness for C5: the odd-window constraint at raw position 3
(actual window size 7) and the step-16 constraint at raw position 2. -/
theorem constraint_round_trip_c5_witness :
    (0 < 2 ∧ 3 ≤ 50 ∧ odd_window_constraint.trackbar_value
        (odd_window_constraint.actual_value 3) = 3) ∧
      (0 < 16 ∧ 2 ≤ 16 ∧ step16_constraint.trackbar_value
        (step16_constraint.actual_value 2) = 2) :=
  ⟨⟨by decide, by decide, constraint_round_trip_c5 2 1 50 3 (by decide) (by decide)⟩,
   ⟨by decide, by decide, constraint_round_trip_c5 16 16 16 2 (by decide) (by decide)⟩⟩

/-! ## C10: raw validity mask -/

/-- C10: the raw per-pixel validity mask marks pixel `i` valid iff its
disparity strictly exceeds `minDisparity - 1 + eps` (float32 machine
epsilon); the block matcher's no-match sentinel `minDisparity - 1` is
always invalid, and any disparity at or above `minDisparity` is valid. -/
theorem raw_validity_c10 (m : Int) (d : DMap) (i : Nat) (hi : i < d.length) :
    ((raw_validity m d).getD i false = true ↔ (m : ℚ) - 1 + eps32 < d.getD i 0) ∧
      (d.getD i 0 = (m : ℚ) - 1 → (raw_validity m d).getD i false = false) ∧
      ((m : ℚ) ≤ d.getD i 0 → (raw_validity m d).getD i false = true) := by
  have hlen : (raw_validity m d).length = d.length := by simp [raw_validity]
  have hget : (raw_validity m d).getD i false =
      decide ((m : ℚ) - 1 + eps32 < d.getD i 0) := by
    rw [List.getD_eq_getElem _ _ (hlen ▸ hi), List.getD_eq_getElem _ _ hi]
    simp [raw_validity]
  refine ⟨by rw [hget]; simp, fun hsent => ?_, fun habove => ?_⟩
  · rw [hget, hsent]
    have h0 : (0 : ℚ) < eps32 := by norm_num [eps32]
    simp only [decide_eq_false_iff_not, not_lt]
    linarith
  · rw [hget]
    have h1 : eps32 < 1 := by norm_num [eps32]
    simp only [decide_eq_true_eq]
    linarith

/-- Witness for C10 at `minDisparity = 0` and a two-pixel map holding the
sentinel value `-1` and the in-range value `0`. -/
theorem raw_validity_c10_witness :
    (1 < ([-1, 0] : DMap).length) ∧
      (((raw_validity 0 [-1, 0]).getD 1 false = true ↔
          ((0 : Int) : ℚ) - 1 + eps32 < ([-1, 0] : DMap).getD 1 0) ∧
        (([-1, 0] : DMap).getD 1 0 = ((0 : Int) : ℚ) - 1 →
          (raw_validity 0 [-1, 0]).getD 1 false = false) ∧
        (((0 : Int) : ℚ) ≤ ([-1, 0] : DMap).getD 1 0 →
          (raw_validity 0 [-1, 0]).getD 1 false = true)) :=
  ⟨by decide, raw_validity_c10 0 [-1, 0] 1 (by decide)⟩

/-! ## Elementwise pipeline versus pixelwise statistics -/

lemma getD_map {α β : Type} (f : α → β) (l : List α) (i : Nat) (d : α) (d' : β)
    (h : i < l.length) : (l.map f).getD i d' = f (l.getD i d) := by
  rw [List.getD_eq_getElem _ _ (by simpa using h), List.getD_eq_getElem _ _ h]
  simp

lemma getD_zipWith {α β γ : Type} (f : α → β → γ) (a : List α) (b : List β) (i : Nat)
    (da : α) (db : β) (dc : γ) (ha : i < a.length) (hb : i < b.length) :
    (List.zipWith f a b).getD i dc = f (a.getD i da) (b.getD i db) := by
  have hl : i < (List.zipWith f a b).length := by
    rw [List.length_zipWith]; exact lt_min ha hb
  rw [List.getD_eq_getElem _ _ hl, List.getD_eq_getElem _ _ ha, List.getD_eq_getElem _ _ hb]
  simp

lemma foldl_np_add_spec (n : Nat) :
    ∀ (ds : List DMap) (acc : DMap), acc.length = n → (∀ d ∈ ds, d.length = n) →
      (ds.foldl np_add acc).length = n ∧
      ∀ i, i < n → (ds.foldl np_add acc).getD i 0 =
        acc.getD i 0 + (ds.map (fun d => d.getD i 0)).sum
  | [], acc, hacc, _ => ⟨hacc, by simp⟩
  | d :: ds, acc, hacc, hds => by
    have hd : d.length = n := hds d (by simp)
    have hacc2 : (np_add acc d).length = n := by
      simp [np_add, List.length_zipWith, hacc, hd]
    obtain ⟨h1, h2⟩ :=
      foldl_np_add_spec n ds (np_add acc d) hacc2 (fun x hx => hds x (by simp [hx]))
    refine ⟨h1, fun i hi => ?_⟩
    rw [List.foldl_cons, h2 i hi]
    simp only [np_add]
    rw [getD_zipWith (fun x y => x + y) acc d i 0 0 0 (hacc ▸ hi) (hd ▸ hi)]
    simp [add_assoc]

lemma np_sum_maps_spec (n : Nat) (ds : List DMap) (hne : ds ≠ [])
    (hds : ∀ d ∈ ds, d.length = n) :
    (np_sum_maps ds).length = n ∧
      ∀ i, i < n → (np_sum_maps ds).getD i 0 = (ds.map (fun d => d.getD i 0)).sum := by
  match ds, hne with
  | d :: ds, _ =>
    have hd : d.length = n := hds d (by simp)
    obtain ⟨h1, h2⟩ := foldl_np_add_spec n ds d hd (fun x hx => hds x (by simp [hx]))
    refine ⟨h1, fun i hi => ?_⟩
    simp only [np_sum_maps, h2 i hi, List.map_cons, List.sum_cons]

lemma np_mean_maps_spec (n : Nat) (ds : List DMap) (hne : ds ≠ [])
    (hds : ∀ d ∈ ds, d.length = n) :
    (np_mean_maps ds).length = n ∧
      ∀ i, i < n → (np_mean_maps ds).getD i 0 = pixelMean ds i := by
  obtain ⟨h1, h2⟩ := np_sum_maps_spec n ds hne hds
  refine ⟨by simp [np_mean_maps, h1], fun i hi => ?_⟩
  rw [np_mean_maps, getD_map _ _ i 0 0 (h1 ▸ hi), h2 i hi, pixelMean, pixelVals]

lemma foldl_np_and_spec (n : Nat) :
    ∀ (vs : List VMask) (acc : VMask), acc.length = n → (∀ v ∈ vs, v.length = n) →
      (vs.foldl np_logical_and acc).length = n ∧
      ∀ i, i < n → (vs.foldl np_logical_and acc).getD i false =
        (acc.getD i false && vs.all (fun v => v.getD i false))
  | [], acc, hacc, _ => ⟨hacc, by simp⟩
  | v :: vs, acc, hacc, hvs => by
    have hv : v.length = n := hvs v (by simp)
    have hacc2 : (np_logical_and acc v).length = n := by
      simp [np_logical_and, List.length_zipWith, hacc, hv]
    obtain ⟨h1, h2⟩ :=
      foldl_np_and_spec n vs (np_logical_and acc v) hacc2 (fun x hx => hvs x (by simp [hx]))
    refine ⟨h1, fun i hi => ?_⟩
    rw [List.foldl_cons, h2 i hi]
    simp only [np_logical_and]
    rw [getD_zipWith (fun x y => x && y) acc v i false false false (hacc ▸ hi) (hv ▸ hi)]
    simp [Bool.and_assoc]

lemma reduce_and_spec (n : Nat) (vs : List VMask) (hne : vs ≠ [])
    (hvs : ∀ v ∈ vs, v.length = n) :
    (reduce_and vs).length = n ∧
      ∀ i, i < n → (reduce_and vs).getD i false = vs.all (fun v => v.getD i false) := by
  match vs, hne with
  | v :: vs, _ =>
    have hv : v.length = n := hvs v (by simp)
    obtain ⟨h1, h2⟩ := foldl_np_and_spec n vs v hv (fun x hx => hvs x (by simp [hx]))
    refine ⟨h1, fun i hi => ?_⟩
    simp only [reduce_and, h2 i hi, List.all_cons]

lemma np_var_maps_spec (n : Nat) (ds : List DMap) (hne : ds ≠ [])
    (hds : ∀ d ∈ ds, d.length = n) :
    (np_var_maps ds).length = n ∧
      ∀ i, i < n → (np_var_maps ds).getD i 0 = pixelVar ds i := by
  obtain ⟨hm1, hm2⟩ := np_mean_maps_spec n ds hne hds
  have hsqlen : ∀ e ∈ ds.map (fun d =>
      List.zipWith (fun x mu => (x - mu) ^ 2) d (np_mean_maps ds)), e.length = n := by
    intro e he
    obtain ⟨d, hd, rfl⟩ := List.mem_map.mp he
    simp [List.length_zipWith, hds d hd, hm1]
  have hsqne : ds.map (fun d =>
      List.zipWith (fun x mu => (x - mu) ^ 2) d (np_mean_maps ds)) ≠ [] := by
    simpa using hne
  obtain ⟨h1, h2⟩ := np_mean_maps_spec n _ hsqne hsqlen
  refine ⟨h1, fun i hi => ?_⟩
  have key : (ds.map (fun d =>
        List.zipWith (fun x mu => (x - mu) ^ 2) d (np_mean_maps ds))).map
        (fun e => List.getD e i 0)
      = ds.map (fun d => (List.getD d i 0 - pixelMean ds i) ^ 2) := by
    rw [List.map_map]
    refine List.map_congr_left (fun d hd => ?_)
    simp only [Function.comp]
    rw [getD_zipWith (fun x mu => (x - mu) ^ 2) d (np_mean_maps ds) i 0 0 0
      ((hds d hd) ▸ hi) (hm1 ▸ hi), hm2 i hi]
  rw [np_var_maps, h2 i hi]
  rw [pixelMean, pixelVals, key, pixelVar, pixelVals, List.length_map, List.map_map]
  rfl

lemma np_std_lt_spec (n : Nat) (ds : List DMap) (t : ℚ) (hne : ds ≠ [])
    (hds : ∀ d ∈ ds, d.length = n) :
    (np_std_lt ds t).length = n ∧
      ∀ i, i < n → (np_std_lt ds t).getD i false = decide (pixelVar ds i < t ^ 2) := by
  obtain ⟨h1, h2⟩ := np_var_maps_spec n ds hne hds
  refine ⟨by simp [np_std_lt, h1], fun i hi => ?_⟩
  rw [np_std_lt, getD_map _ _ i 0 false (h1 ▸ hi), h2 i hi]

/-! ## C1: the smoothed disparity -/

/-- Statement of claim C1 over a smoothing-window state holding maps of
`n` pixels: `_get_smoothed_disparity` returns the pixelwise arithmetic
mean over exactly the populated slots' maps (so the mean over `p`
populated slots divides by `p`, never by the window capacity), together
with the pixelwise conjunction of all populated slots' raw validities
and of the test "standard deviation across the populated maps is below
the accepted deviation". -/
def C1Statement (slots : List (Option (DMap × VMask))) (t : ℚ) (n : Nat) : Prop :=
  ((get_smoothed_disparity slots t).1.length = n ∧
    (get_smoothed_disparity slots t).2.length = n) ∧
  (∀ i, i < n → (get_smoothed_disparity slots t).1.getD i 0 =
      pixelMean ((slots.filterMap id).map (fun dv => dv.1)) i) ∧
  (∀ i, i < n → ((get_smoothed_disparity slots t).2.getD i false = true ↔
      ((∀ v ∈ (slots.filterMap id).map (fun dv => dv.2), v.getD i false = true) ∧
        Real.sqrt ((pixelVar ((slots.filterMap id).map (fun dv => dv.1)) i : ℚ) : ℝ)
          < (t : ℝ))))

/-- C1: for every smoothing window holding at least one populated slot
(all maps `n` pixels) and a positive accepted deviation,
`_get_smoothed_disparity` satisfies `C1Statement`: the mean is taken
over exactly the populated slots and the validity is the AND of their
raw masks with the cross-frame standard-deviation test. -/
theorem get_smoothed_disparity_c1 (slots : List (Option (DMap × VMask))) (t : ℚ) (n : Nat)
    (hpop : slots.filterMap id ≠ [])
    (hlen : ∀ dv ∈ slots.filterMap id, dv.1.length = n ∧ dv.2.length = n)
    (ht : 0 < t) : C1Statement slots t n := by
  have hds : ∀ d ∈ (slots.filterMap id).map (fun dv => dv.1), d.length = n := by
    intro d hd
    obtain ⟨dv, hdv, rfl⟩ := List.mem_map.mp hd
    exact (hlen dv hdv).1
  have hvs : ∀ v ∈ (slots.filterMap id).map (fun dv => dv.2), v.length = n := by
    intro v hv
    obtain ⟨dv, hdv, rfl⟩ := List.mem_map.mp hv
    exact (hlen dv hdv).2
  have hdsne : (slots.filterMap id).map (fun dv => dv.1) ≠ [] := by simpa using hpop
  have hvsne : (slots.filterMap id).map (fun dv => dv.2) ≠ [] := by simpa using hpop
  obtain ⟨hm1, hm2⟩ := np_mean_maps_spec n _ hdsne hds
  obtain ⟨ha1, ha2⟩ := reduce_and_spec n _ hvsne hvs
  obtain ⟨hs1, hs2⟩ := np_std_lt_spec n _ t hdsne hds
  refine ⟨⟨by simpa [get_smoothed_disparity] using hm1, ?_⟩, fun i hi => ?_, fun i hi => ?_⟩
  · simp only [get_smoothed_disparity]
    simp [np_logical_and, List.length_zipWith, ha1, hs1]
  · simp only [get_smoothed_disparity]
    exact hm2 i hi
  · simp only [get_smoothed_disparity, np_logical_and]
    rw [getD_zipWith (fun x y => x && y) _ _ i false false false (ha1 ▸ hi) (hs1 ▸ hi),
      ha2 i hi, hs2 i hi, Bool.and_eq_true, List.all_eq_true, decide_eq_true_eq,
      var_lt_sq_iff_sqrt_lt _ _ ht]

/-- Witness for C1: a window of capacity 2 with one populated slot. -/
theorem get_smoothed_disparity_c1_witness :
    (([some (([2], [true]) : DMap × VMask), none] : List (Option (DMap × VMask))).filterMap
        id ≠ [] ∧
      (∀ dv ∈ ([some (([2], [true]) : DMap × VMask), none] :
          List (Option (DMap × VMask))).filterMap id,
        dv.1.length = 1 ∧ dv.2.length = 1) ∧
      (0 : ℚ) < 10) ∧
    C1Statement [some (([2], [true]) : DMap × VMask), none] 10 1 :=
  ⟨⟨by decide, by decide, by decide⟩,
   get_smoothed_disparity_c1 _ _ _ (by decide) (by decide) (by decide)⟩

/-! ## Field lemmas for the tuner operations -/

lemma save_bm (t : Tuner) : (save_bm_state t).bm = t.bm := rfl

lemma save_params (t : Tuner) : (save_bm_state t).params = t.params := rfl

lemma save_valid (t : Tuner) : (save_bm_state t).valid = t.valid := rfl

lemma save_bm_settings (t : Tuner) : (save_bm_state t).bm_settings =
    fun q => if q ∈ t.params then t.bm_settings q ++ [t.bm q] else t.bm_settings q := rfl

lemma update_bm (t : Tuner) : (update_disparity_map_no_wait t).bm = t.bm := by
  simp only [update_disparity_map_no_wait]
  split <;> rfl

lemma update_bm_settings (t : Tuner) :
    (update_disparity_map_no_wait t).bm_settings = t.bm_settings := by
  simp only [update_disparity_map_no_wait]
  split <;> rfl

lemma update_params (t : Tuner) : (update_disparity_map_no_wait t).params = t.params := by
  simp only [update_disparity_map_no_wait]
  split <;> rfl

lemma update_valid (t : Tuner) : (update_disparity_map_no_wait t).valid = t.valid := by
  simp only [update_disparity_map_no_wait]
  split <;> rfl

lemma update_waitCount (t : Tuner) :
    (update_disparity_map_no_wait t).waitCount = t.waitCount := by
  simp only [update_disparity_map_no_wait]
  split <;> rfl

lemma update_displayCount (t : Tuner) :
    (update_disparity_map_no_wait t).displayCount = t.displayCount + 1 := by
  simp only [update_disparity_map_no_wait]
  split <;> rfl

lemma tune_bm (t : Tuner) (pr : Nat) (w : Bool) : (tune_pair t pr w).bm = t.bm := by
  simp only [tune_pair]
  split <;> simp [update_bm, save_bm]

lemma tune_params (t : Tuner) (pr : Nat) (w : Bool) :
    (tune_pair t pr w).params = t.params := by
  simp only [tune_pair]
  split <;> simp [update_params, save_params]

lemma tune_valid (t : Tuner) (pr : Nat) (w : Bool) :
    (tune_pair t pr w).valid = t.valid := by
  simp only [tune_pair]
  split <;> simp [update_valid, save_valid]

lemma tune_bm_settings (t : Tuner) (pr : Nat) (w : Bool) :
    (tune_pair t pr w).bm_settings =
      fun q => if q ∈ t.params then t.bm_settings q ++ [t.bm q] else t.bm_settings q := by
  simp only [tune_pair]
  split <;> simp [update_bm_settings, save_bm_settings]

lemma set_value_bm_settings (t : Tuner) (p : String) (v : Int) :
    (set_value t p v).bm_settings = t.bm_settings := by
  simp only [set_value]
  split
  · rw [update_bm_settings]
  · rfl

lemma set_value_params (t : Tuner) (p : String) (v : Int) :
    (set_value t p v).params = t.params := by
  simp only [set_value]
  split
  · rw [update_params]
  · rfl

lemma set_value_valid (t : Tuner) (p : String) (v : Int) :
    (set_value t p v).valid = t.valid := by
  simp only [set_value]
  split
  · rw [update_valid]
  · rfl

lemma set_value_bm_of_valid (t : Tuner) (p : String) (v : Int) (h : t.valid p v = true) :
    (set_value t p v).bm = fun q => if q = p then v else t.bm q := by
  simp only [set_value, h, if_true]
  rw [update_bm]

/-! ## C4: report_settings leaves the history unchanged -/

/-- C4: after `report_settings p` returns, the history of every
parameter `q` (not only `p`) is exactly the sequence it was before the
call: the temporary append is popped again. -/
theorem report_settings_no_side_effect_c4 (t : Tuner) (p q : String) :
    ((report_settings t p).2).bm_settings q = t.bm_settings q := by
  simp only [report_settings, save_bm_state]
  by_cases hq : q ∈ t.params
  · simp [hq, List.dropLast_concat]
  · simp [hq]

/-! ## Concrete tuners for the session evaluations -/

/-- Concrete tuner as constructed by `BMTuner.__init__`: one parameter
"p" whose block-matcher value at construction time is 5, every write
accepted, smoothing window of capacity 1, histories empty (the
constructor records nothing). -/
def baseTuner : Tuner where
  params := ["p"]
  bm := fun _ => 5
  valid := fun _ _ => true
  bm_settings := fun _ => []
  pair := 0
  get_disparity := fun _ => [0]
  minDisparity := 0
  time_smoothing_window := 1
  last_disparities := [none]
  next_disparity_index := 0
  accepted_deviation := 10
  disparity := []
  validity := []
  last_raw_mask := []
  last_smoothed_mask := none
  displayCount := 0
  waitCount := 0

/-- Tuner whose block matcher rejects every parameter write. -/
def rejectTuner : Tuner := { baseTuner with valid := fun _ _ => false }

/-- Tuner with smoothing window of capacity 2, one already-populated
slot holding disparity 100 (raw-valid), and a current pair whose
disparity is 0 (raw-valid): the two frames deviate by far more than the
accepted deviation 10. -/
def smoothTuner : Tuner :=
  { baseTuner with
    time_smoothing_window := 2
    last_disparities := [some ([100], [true]), none]
    next_disparity_index := 1 }

/-! ## C3: first history entry versus construction-time value -/

/-- C3 (refuted by the code): the constructor records nothing, so the
first history entry is written by the first `tune_pair`; a
`setParameter` call before that makes the entry differ from the
construction-time value.  Here `p` is 5 at construction, is set to 7,
then `tune_pair` runs: the recorded history is `[7]`, not `[5]`. -/
theorem first_entry_not_construction_default_c3 :
    baseTuner.bm "p" = 5 ∧
      (run baseTuner [Op.set "p" 7, Op.tune 1 false]).bm_settings "p" = [7] ∧
      (run baseTuner [Op.set "p" 7, Op.tune 1 false]).bm_settings "p" ≠
        [baseTuner.bm "p"] := by
  refine ⟨rfl, by decide, by decide⟩

/-! ## C7: parameter write handling -/

/-- Statement of claim C7 for one `setParameter` write: a rejected write
leaves the parameter values, the ring buffer, the display and the wait
state untouched; an accepted write sets exactly the one parameter,
recomputes and redisplays once, and never blocks. -/
def C7Statement (t : Tuner) (p : String) (v : Int) : Prop :=
  (t.valid p v = false →
    ((set_value t p v).bm = t.bm ∧
      (set_value t p v).displayCount = t.displayCount ∧
      (set_value t p v).last_disparities = t.last_disparities ∧
      (set_value t p v).waitCount = t.waitCount)) ∧
  (t.valid p v = true →
    ((set_value t p v).bm p = v ∧
      (∀ q, q ≠ p → (set_value t p v).bm q = t.bm q) ∧
      (set_value t p v).displayCount = t.displayCount + 1 ∧
      (set_value t p v).waitCount = t.waitCount))

/-- C7: every parameter write through `_set_value` satisfies
`C7Statement`: on a bad-argument error the previous value stays and the
disparity map is not recomputed; on success the visualization is
recomputed and redisplayed without blocking. -/
theorem set_value_c7 (t : Tuner) (p : String) (v : Int) : C7Statement t p v := by
  constructor
  · intro h
    simp [set_value, h]
  · intro h
    refine ⟨?_, fun q hq => ?_, ?_, ?_⟩
    · rw [set_value_bm_of_valid t p v h]
      simp
    · rw [set_value_bm_of_valid t p v h]
      simp [hq]
    · simp only [set_value, h, if_true]
      rw [update_displayCount]
    · simp only [set_value, h, if_true]
      rw [update_waitCount]

/-- Witness for C7: a rejected write on `rejectTuner` and an accepted
write on `baseTuner`. -/
theorem set_value_c7_witness :
    (rejectTuner.valid "p" 7 = false ∧
      ((set_value rejectTuner "p" 7).bm = rejectTuner.bm ∧
        (set_value rejectTuner "p" 7).displayCount = rejectTuner.displayCount ∧
        (set_value rejectTuner "p" 7).last_disparities = rejectTuner.last_disparities ∧
        (set_value rejectTuner "p" 7).waitCount = rejectTuner.waitCount)) ∧
    (baseTuner.valid "p" 7 = true ∧
      ((set_value baseTuner "p" 7).bm "p" = 7 ∧
        (∀ q, q ≠ "p" → (set_value baseTuner "p" 7).bm q = baseTuner.bm q) ∧
        (set_value baseTuner "p" 7).displayCount = baseTuner.displayCount + 1 ∧
        (set_value baseTuner "p" 7).waitCount = baseTuner.waitCount)) :=
  ⟨⟨rfl, (set_value_c7 rejectTuner "p" 7).1 rfl⟩,
   ⟨rfl, (set_value_c7 baseTuner "p" 7).2 rfl⟩⟩

/-! ## C8: mask applied to the smoothed panel -/

/-- C8 (refuted by the code): with smoothing enabled the smoothed panel
is masked with `validity_bool`, the newest frame's raw validity mask,
not with the ValidityMask returned by the smoothing step.  On
`smoothTuner` the two frames hold 100 and 0 (standard deviation 50 over
the accepted 10), so the smoothing validity is `[false]`, yet the mask
applied to the smoothed panel is `[true]`. -/
theorem smoothed_panel_masked_with_raw_mask_c8 :
    (update_disparity_map_no_wait smoothTuner).last_smoothed_mask = some [true] ∧
      (update_disparity_map_no_wait smoothTuner).validity = [false] ∧
      (update_disparity_map_no_wait smoothTuner).last_smoothed_mask ≠
        some ((update_disparity_map_no_wait smoothTuner).validity) := by
  have hraw : raw_validity (0 : Int) [0] = [true] := by
    simp [raw_validity, eps32]
    norm_num
  have hsm : get_smoothed_disparity
      [some (([100] : DMap), ([true] : VMask)), some ([0], [true])] 10 = ([50], [false]) := by
    simp [get_smoothed_disparity, reduce_and, np_logical_and, np_std_lt, np_var_maps,
      np_mean_maps, np_sum_maps, np_add]
    norm_num
  have hA : (update_disparity_map_no_wait smoothTuner).last_smoothed_mask = some [true] := by
    simp only [update_disparity_map_no_wait]
    simp [smoothTuner, baseTuner, hraw]
  have hB : (update_disparity_map_no_wait smoothTuner).validity = [false] := by
    simp only [update_disparity_map_no_wait]
    simp [smoothTuner, baseTuner, hraw, List.set, hsm]
  refine ⟨hA, hB, ?_⟩
  rw [hA, hB]
  simp

/-! ## C6: per-pair failures are non-fatal in the calibration pipeline -/

lemma process_pairs_spec (detect : String → String → Bool) :
    ∀ (files : List String) (pairs : List (String × String)),
      toPairs files = some pairs →
      process_pairs detect files = some (pairTrace detect pairs)
  | [], pairs, h => by
    simp only [toPairs, Option.some.injEq] at h
    subst h
    simp [process_pairs, pairTrace]
  | [x], pairs, h =>
    Option.noConfusion (show (none : Option (List (String × String))) = some pairs from h)
  | l :: r :: rest, pairs, h => by
    simp only [toPairs] at h
    cases hrest : toPairs rest with
    | none =>
      rw [hrest] at h
      simp at h
    | some ps =>
      rw [hrest] at h
      simp only [Option.map, Option.some.injEq] at h
      subst h
      have ih := process_pairs_spec detect rest ps hrest
      simp [process_pairs, ih, pairTrace]

lemma pairTrace_counts (detect : String → String → Bool) :
    ∀ pairs : List (String × String),
      (pairTrace detect pairs).countP isFailed =
          (pairs.filter (fun pr => !detect pr.1 pr.2)).length ∧
        (pairTrace detect pairs).countP isAdd =
          (pairs.filter (fun pr => detect pr.1 pr.2)).length
  | [] => by simp [pairTrace]
  | pr :: pairs => by
    obtain ⟨h1, h2⟩ := pairTrace_counts detect pairs
    by_cases hd : detect pr.1 pr.2 <;>
      simp [pairTrace, List.countP_cons, List.filter_cons, hd, isFailed, isAdd, h1, h2,
        pairTrace] at h1 h2 ⊢ <;> omega

/-- Statement of claim C6 over a file list grouped into pairs: the run
reports one `failed` event per pair the detector rejects, one
`addCorners` observation per accepted pair, skips nothing else, and
always ends with `calibrate`, `check` and `exportCal`. -/
def C6Statement (detect : String → String → Bool) (files : List String)
    (pairs : List (String × String)) : Prop :=
  calibrate_folder detect files =
      some (pairTrace detect pairs ++
        [CalEvent.calibrate, CalEvent.check, CalEvent.exportCal]) ∧
    (pairTrace detect pairs).countP isFailed =
      (pairs.filter (fun pr => !detect pr.1 pr.2)).length ∧
    (pairTrace detect pairs).countP isAdd =
      (pairs.filter (fun pr => detect pr.1 pr.2)).length

/-- C6: a chessboard-not-found failure on one pair is non-fatal — the
failing pair is reported, skipped, the loop continues through the
remaining pairs, and `calibrate_cameras`/`check_calibration`/`export`
still run at the end. -/
theorem calibrate_folder_c6 (detect : String → String → Bool) (files : List String)
    (pairs : List (String × String)) (h : toPairs files = some pairs) :
    C6Statement detect files pairs := by
  obtain ⟨h1, h2⟩ := pairTrace_counts detect pairs
  exact ⟨by simp [calibrate_folder, process_pairs_spec detect files pairs h], h1, h2⟩

/-- Witness for C6: four pairs of which exactly the second fails corner
detection; the run keeps 3 observations, reports exactly 1 failure, and
still calibrates, validates and exports. -/
theorem calibrate_folder_c6_witness :
    toPairs ["l1", "r1", "l2", "r2", "l3", "r3", "l4", "r4"] =
        some [("l1", "r1"), ("l2", "r2"), ("l3", "r3"), ("l4", "r4")] ∧
      C6Statement (fun l _ => !(l == "l2")) ["l1", "r1", "l2", "r2", "l3", "r3", "l4", "r4"]
        [("l1", "r1"), ("l2", "r2"), ("l3", "r3"), ("l4", "r4")] ∧
      (pairTrace (fun l _ => !(l == "l2"))
          [("l1", "r1"), ("l2", "r2"), ("l3", "r3"), ("l4", "r4")]).countP isFailed = 1 ∧
      (pairTrace (fun l _ => !(l == "l2"))
          [("l1", "r1"), ("l2", "r2"), ("l3", "r3"), ("l4", "r4")]).countP isAdd = 3 :=
  ⟨by decide, calibrate_folder_c6 _ _ _ (by decide), by decide, by decide⟩

/-! ## C2: the settings report -/

/-- C2 as stated is false: after `tune_pair` has run `k = 2` times with
the distinct values 1 and 2 recorded for `p`, `report_settings`
temporarily appends the current value 2, counts over `[2, 2]` and
reports the single row `(2, 2)`: the frequencies sum to `k = 2`, not
`k - 1 = 1`. -/
theorem report_settings_counterexample_c2 :
    (((report_settings (run baseTuner
          [Op.set "p" 1, Op.tune 1 false, Op.set "p" 2, Op.tune 2 false]) "p").1.map
        (fun r => r.2)).sum = 2) ∧
      ¬ (((report_settings (run baseTuner
          [Op.set "p" 1, Op.tune 1 false, Op.set "p" 2, Op.tune 2 false]) "p").1.map
        (fun r => r.2)).sum = 2 - 1) := by
  exact ⟨by decide, by decide⟩

/-! Entries and keys of the frequency-keyed dictionary. -/

lemma upsert_mem (m : List (Nat × Int)) (k : Nat) (v : Int) :
    ∀ e ∈ upsert m k v, e = (k, v) ∨ e ∈ m := by
  intro e he
  simp only [upsert] at he
  split at he
  · obtain ⟨e0, he0, heq⟩ := List.mem_map.mp he
    by_cases hk : e0.1 = k
    · rw [if_pos hk] at heq
      exact Or.inl heq.symm
    · rw [if_neg hk] at heq
      exact Or.inr (heq ▸ he0)
  · rcases List.mem_append.mp he with h | h
    · exact Or.inr h
    · exact Or.inl (by simpa using h)

lemma vf_aux_entries (l : List Int) :
    ∀ (vs : List Int) (m : List (Nat × Int)),
      (∀ e ∈ m, l.count e.2 = e.1) →
      ∀ e ∈ vs.foldl (fun m v => upsert m (l.count v) v) m, l.count e.2 = e.1
  | [], _, hm => hm
  | v :: vs, m, hm => by
    rw [List.foldl_cons]
    refine vf_aux_entries l vs _ (fun e he => ?_)
    rcases upsert_mem m (l.count v) v e he with rfl | hmem
    · rfl
    · exact hm e hmem

lemma vf_entries (l : List Int) : ∀ e ∈ value_frequency l, l.count e.2 = e.1 :=
  vf_aux_entries l (uniqueValues l) [] (by simp)

lemma upsert_keys (m : List (Nat × Int)) (k : Nat) (v : Int) :
    ((upsert m k v).map (fun e => e.1) = m.map (fun e => e.1) ∧
        k ∈ m.map (fun e => e.1)) ∨
      ((upsert m k v).map (fun e => e.1) = m.map (fun e => e.1) ++ [k] ∧
        k ∉ m.map (fun e => e.1)) := by
  by_cases hc : (m.any (fun e => e.1 = k)) = true
  · left
    obtain ⟨e, he, hek⟩ := List.any_eq_true.mp hc
    refine ⟨?_, List.mem_map.mpr ⟨e, he, by simpa using hek⟩⟩
    rw [upsert, if_pos hc, List.map_map]
    refine List.map_congr_left (fun e2 he2 => ?_)
    by_cases h2 : e2.1 = k <;> simp [h2, Function.comp]
  · right
    constructor
    · rw [upsert, if_neg hc]
      simp
    · intro hmem
      obtain ⟨e, he, hek⟩ := List.mem_map.mp hmem
      exact hc (List.any_eq_true.mpr ⟨e, he, by simp [hek]⟩)

lemma upsert_keys_nodup (m : List (Nat × Int)) (k : Nat) (v : Int)
    (h : (m.map (fun e => e.1)).Nodup) : ((upsert m k v).map (fun e => e.1)).Nodup := by
  rcases upsert_keys m k v with ⟨heq, _⟩ | ⟨heq, hk⟩
  · rw [heq]
    exact h
  · rw [heq, List.nodup_append]
    refine ⟨h, List.nodup_singleton _, ?_⟩
    intro a ha hb
    simp only [List.mem_singleton] at hb
    subst hb
    exact hk ha

lemma upsert_keys_sub (m : List (Nat × Int)) (k : Nat) (v : Int) (k2 : Nat)
    (h : k2 ∈ m.map (fun e => e.1)) : k2 ∈ (upsert m k v).map (fun e => e.1) := by
  rcases upsert_keys m k v with ⟨heq, _⟩ | ⟨heq, _⟩ <;> rw [heq] <;> simp [h]

lemma upsert_keys_self (m : List (Nat × Int)) (k : Nat) (v : Int) :
    k ∈ (upsert m k v).map (fun e => e.1) := by
  rcases upsert_keys m k v with ⟨heq, hk⟩ | ⟨heq, _⟩
  · rw [heq]
    exact hk
  · rw [heq]
    simp

lemma vf_aux_keys_nodup (l : List Int) :
    ∀ (vs : List Int) (m : List (Nat × Int)), (m.map (fun e => e.1)).Nodup →
      ((vs.foldl (fun m v => upsert m (l.count v) v) m).map (fun e => e.1)).Nodup
  | [], _, hm => hm
  | v :: vs, m, hm => by
    rw [List.foldl_cons]
    exact vf_aux_keys_nodup l vs _ (upsert_keys_nodup m (l.count v) v hm)

lemma vf_aux_keys_sub (l : List Int) :
    ∀ (vs : List Int) (m : List (Nat × Int)) (k2 : Nat), k2 ∈ m.map (fun e => e.1) →
      k2 ∈ (vs.foldl (fun m v => upsert m (l.count v) v) m).map (fun e => e.1)
  | [], _, _, hm => hm
  | v :: vs, m, k2, hm => by
    rw [List.foldl_cons]
    exact vf_aux_keys_sub l vs _ k2 (upsert_keys_sub m (l.count v) v k2 hm)

lemma vf_aux_keys_cover (l : List Int) :
    ∀ (vs : List Int) (m : List (Nat × Int)) (x : Int), x ∈ vs →
      l.count x ∈ (vs.foldl (fun m v => upsert m (l.count v) v) m).map (fun e => e.1)
  | [], _, x, hx => absurd hx (by simp)
  | v :: vs, m, x, hx => by
    rw [List.foldl_cons]
    rcases List.mem_cons.mp hx with rfl | hx2
    · exact vf_aux_keys_sub l vs _ _ (upsert_keys_self m (l.count x) x)
    · exact vf_aux_keys_cover l vs _ x hx2

lemma vf_keys_nodup (l : List Int) : ((value_frequency l).map (fun e => e.1)).Nodup :=
  vf_aux_keys_nodup l (uniqueValues l) [] (by simp)

lemma vf_keys_cover (l : List Int) (x : Int) (hx : x ∈ l) :
    l.count x ∈ (value_frequency l).map (fun e => e.1) :=
  vf_aux_keys_cover l (uniqueValues l) [] x (List.mem_dedup.mpr hx)

/-! Sorting of the frequency column. -/

lemma insertDesc_perm (a : Nat) : ∀ l : List Nat, (insertDesc a l).Perm (a :: l)
  | [] => List.Perm.refl _
  | b :: l => by
    simp only [insertDesc]
    split
    · exact ((insertDesc_perm a l).cons b).trans (List.Perm.swap _ _ _)
    · exact List.Perm.refl _

lemma sortDesc_perm : ∀ l : List Nat, (sortDesc l).Perm l
  | [] => List.Perm.refl _
  | a :: l => by
    simp only [sortDesc, List.foldr_cons]
    exact (insertDesc_perm a _).trans ((sortDesc_perm l).cons a)

lemma insertDesc_sorted (a : Nat) :
    ∀ l : List Nat, l.Pairwise (fun x y => y ≤ x) →
      (insertDesc a l).Pairwise (fun x y => y ≤ x)
  | [], _ => by simp [insertDesc]
  | b :: l, h => by
    obtain ⟨hb, hl⟩ := List.pairwise_cons.mp h
    simp only [insertDesc]
    split
    · next hab =>
      refine List.pairwise_cons.mpr ⟨fun c hc => ?_, insertDesc_sorted a l hl⟩
      rcases List.mem_cons.mp ((insertDesc_perm a l).mem_iff.mp hc) with rfl | hc2
      · exact Nat.le_of_lt hab
      · exact hb c hc2
    · next hab =>
      refine List.pairwise_cons.mpr ⟨fun c hc => ?_, h⟩
      rcases List.mem_cons.mp hc with rfl | hc2
      · exact Nat.le_of_not_lt hab
      · exact Nat.le_trans (hb c hc2) (Nat.le_of_not_lt hab)

lemma sortDesc_sorted : ∀ l : List Nat, (sortDesc l).Pairwise (fun x y => y ≤ x)
  | [] => by simp [sortDesc]
  | a :: l => by
    simp only [sortDesc, List.foldr_cons]
    exact insertDesc_sorted a _ (sortDesc_sorted l)

/-! Properties of the produced rows. -/

lemma report_rows_freq (l : List Int) : ∀ r ∈ report_rows l, l.count r.1 = r.2 := by
  intro r hr
  simp only [report_rows] at hr
  obtain ⟨f, hf, rfl⟩ := List.mem_map.mp hr
  have hfk : f ∈ (value_frequency l).map (fun e => e.1) := (sortDesc_perm _).mem_iff.mp hf
  cases hfind : (value_frequency l).find? (fun e => e.1 = f) with
  | none =>
    obtain ⟨e, he, hek⟩ := List.mem_map.mp hfk
    have := List.find?_eq_none.mp hfind e he
    simp [hek] at this
  | some e2 =>
    have h1 : e2.1 = f := by simpa using List.find?_some hfind
    have h2 : e2 ∈ value_frequency l := List.mem_of_find?_eq_some hfind
    have h3 := vf_entries l e2 h2
    simp only [dlookup, hfind, Option.map, Option.getD]
    rw [h3, h1]

lemma report_rows_sorted (l : List Int) :
    (report_rows l).Pairwise (fun a b => b.2 < a.2) := by
  simp only [report_rows]
  rw [List.pairwise_map]
  have hs := sortDesc_sorted ((value_frequency l).map (fun e => e.1))
  have hn : (sortDesc ((value_frequency l).map (fun e => e.1))).Nodup :=
    ((sortDesc_perm _).nodup_iff).mpr (vf_keys_nodup l)
  exact (hs.and hn).imp (fun h => lt_of_le_of_ne h.1 h.2.symm)

lemma report_rows_covers (l : List Int) (x : Int) (hx : x ∈ l) :
    ∃ r ∈ report_rows l, r.2 = l.count x := by
  have hk := vf_keys_cover l x hx
  have hf : l.count x ∈ sortDesc ((value_frequency l).map (fun e => e.1)) :=
    (sortDesc_perm _).mem_iff.mpr hk
  exact ⟨(dlookup (value_frequency l) (l.count x), l.count x),
    List.mem_map_of_mem _ hf, rfl⟩

/-! Total of the value frequencies. -/

lemma sum_ite_zero (a : Int) :
    ∀ m : List Int, a ∉ m → (m.map (fun x => if a = x then 1 else 0)).sum = 0
  | [], _ => rfl
  | b :: m, h => by
    have hab : ¬ a = b := fun hh => h (by simp [hh])
    simp only [List.map_cons, List.sum_cons, if_neg hab]
    rw [sum_ite_zero a m (fun hm => h (by simp [hm]))]

lemma sum_ite_mem (a : Int) :
    ∀ m : List Int, m.Nodup → a ∈ m →
      (m.map (fun x => if a = x then 1 else 0)).sum = 1
  | [], _, ha => absurd ha (by simp)
  | b :: m, hnd, ha => by
    obtain ⟨hbm, hmnd⟩ := List.nodup_cons.mp hnd
    rcases List.mem_cons.mp ha with rfl | ha2
    · simp only [List.map_cons, List.sum_cons, if_pos rfl]
      rw [sum_ite_zero a m hbm]
      simp
    · have hab : ¬ a = b := fun hh => hbm (hh ▸ ha2)
      simp only [List.map_cons, List.sum_cons, if_neg hab]
      rw [sum_ite_mem a m hmnd ha2]

lemma sum_map_add_nat (m : List Int) (f g : Int → Nat) :
    (m.map (fun x => f x + g x)).sum = (m.map f).sum + (m.map g).sum := by
  induction m with
  | nil => simp
  | cons a m ih =>
    simp only [List.map_cons, List.sum_cons, ih]
    omega

/-- Counting each distinct value once and summing the counts recovers the
length of the list: the frequencies of a value-to-frequency table over
`l` always total `l.length`. -/
lemma sum_count_dedup : ∀ l : List Int, (l.dedup.map (fun x => l.count x)).sum = l.length
  | [] => rfl
  | a :: l => by
    by_cases h : a ∈ l
    · rw [List.dedup_cons_of_mem h]
      have hmap : l.dedup.map (fun x => (a :: l).count x) =
          l.dedup.map (fun x => l.count x + if a = x then 1 else 0) := by
        refine List.map_congr_left (fun x hx => ?_)
        rw [List.count_cons]
        congr 1
        simp
      rw [hmap, sum_map_add_nat, sum_count_dedup l,
        sum_ite_mem a l.dedup (List.nodup_dedup l) (List.mem_dedup.mpr h)]
      simp
    · rw [List.dedup_cons_of_not_mem h]
      simp only [List.map_cons, List.sum_cons]
      have h1 : (a :: l).count a = 1 := by
        rw [List.count_cons]
        simp [List.count_eq_zero_of_not_mem h]
      have h2 : l.dedup.map (fun x => (a :: l).count x) =
          l.dedup.map (fun x => l.count x) := by
        refine List.map_congr_left (fun x hx => ?_)
        have hxl : x ∈ l := List.mem_dedup.mp hx
        have hxa : ¬ a = x := fun hh => h (hh ▸ hxl)
        rw [List.count_cons]
        simp [hxa]
      rw [h1, h2, sum_count_dedup l]
      simp [Nat.add_comm]

/-! Running the recorded-distinct-values session. -/

lemma run_append (t : Tuner) (l l2 : List Op) : run t (l ++ l2) = run (run t l) l2 := by
  simp [run, List.foldl_append]

lemma scenario_spec (p : String) (v : Nat → Int) :
    ∀ (k : Nat) (t : Tuner), p ∈ t.params → (∀ q w, t.valid q w = true) →
      (run t (scenario p v k)).params = t.params ∧
      (run t (scenario p v k)).valid = t.valid ∧
      (run t (scenario p v k)).bm_settings p =
        t.bm_settings p ++ (List.range k).map v ∧
      (0 < k → (run t (scenario p v k)).bm p = v (k - 1))
  | 0, t, _, _ => by
    refine ⟨rfl, rfl, by simp [scenario, run], fun hk => absurd hk (by omega)⟩
  | k + 1, t, hp, hv => by
    obtain ⟨hP, hV, hH, _⟩ := scenario_spec p v k t hp hv
    have hrw : run t (scenario p v (k + 1)) =
        tune_pair (set_value (run t (scenario p v k)) p (v k)) 0 false := by
      rw [scenario, run_append]
      rfl
    have hvk : (run t (scenario p v k)).valid p (v k) = true := by
      rw [hV]
      exact hv p (v k)
    have hsbm : (set_value (run t (scenario p v k)) p (v k)).bm p = v k := by
      rw [set_value_bm_of_valid _ _ _ hvk]
      simp
    have hsp : (set_value (run t (scenario p v k)) p (v k)).params = t.params := by
      rw [set_value_params, hP]
    refine ⟨?_, ?_, ?_, fun _ => ?_⟩
    · rw [hrw, tune_params, hsp]
    · rw [hrw, tune_valid, set_value_valid, hV]
    · rw [hrw, tune_bm_settings, hsp]
      simp only [hp, if_pos]
      rw [set_value_bm_settings, hH, hsbm, List.range_succ]
      simp
    · rw [hrw, tune_bm, hsbm]
      simp

/-! The amended claim. -/

/-- Recorded history for parameter `p` after the `k`-call session. -/
def recordedValues (v : Nat → Int) (k : Nat) : List Int := (List.range k).map v

/-- List the report actually counts: the recorded history minus its
first entry, plus the temporarily appended current value. -/
def countedList (v : Nat → Int) (k : Nat) : List Int :=
  (recordedValues v k).drop 1 ++ [v (k - 1)]

/-- Statement of the amended claim C2: after `k ≥ 1` `tune_pair` calls
recording distinct values for `p`, `report_settings p` counts over the
recorded values minus the first plus the temporarily appended current
value — `k` values in total, so the value frequencies sum to `k`, not
`k - 1`; the table is keyed by frequency (distinct values sharing a
frequency collapse to one row), rows are sorted strictly descending by
frequency, every shown row's frequency is the exact count of its shown
value, and every counted value's frequency has a row. -/
def C2Statement (t : Tuner) (p : String) (v : Nat → Int) (k : Nat) : Prop :=
  (run t (scenario p v k)).bm_settings p = recordedValues v k ∧
  (run t (scenario p v k)).bm p = v (k - 1) ∧
  (report_settings (run t (scenario p v k)) p).1 = report_rows (countedList v k) ∧
  (countedList v k).length = k ∧
  ((countedList v k).dedup.map (fun x => (countedList v k).count x)).sum = k ∧
  ((report_settings (run t (scenario p v k)) p).1).Pairwise (fun a b => b.2 < a.2) ∧
  (∀ r ∈ (report_settings (run t (scenario p v k)) p).1,
    (countedList v k).count r.1 = r.2) ∧
  (∀ x ∈ countedList v k,
    ∃ r ∈ (report_settings (run t (scenario p v k)) p).1,
      r.2 = (countedList v k).count x)

/-- C2, amended: the claim's `k - 1` total and one-row-per-distinct-value
shape fail (see the counterexample); what the code guarantees for the
distinct-values session is `C2Statement`. -/
theorem report_settings_amended_c2 (t : Tuner) (p : String) (v : Nat → Int) (k : Nat)
    (hk : 0 < k) (hp : p ∈ t.params) (hv : ∀ q w, t.valid q w = true)
    (hist0 : t.bm_settings p = [])
    (_hdist : ∀ i j, i < k → j < k → v i = v j → i = j) : C2Statement t p v k := by
  obtain ⟨hP, _, hH, hB⟩ := scenario_spec p v k t hp hv
  have hH2 : (run t (scenario p v k)).bm_settings p = recordedValues v k := by
    rw [hH, hist0]
    rfl
  have hB2 := hB hk
  have hsave : (save_bm_state (run t (scenario p v k))).bm_settings p =
      recordedValues v k ++ [v (k - 1)] := by
    rw [save_bm_settings]
    simp only [hP, hp, if_pos]
    rw [hH2, hB2]
  have hdrop : ((recordedValues v k ++ [v (k - 1)]).drop 1) = countedList v k := by
    rw [countedList, List.drop_append_of_le_length]
    simp [recordedValues]
    omega
  have hrows : (report_settings (run t (scenario p v k)) p).1 =
      report_rows (countedList v k) := by
    simp only [report_settings]
    rw [hsave, hdrop]
  have hlen : (countedList v k).length = k := by
    simp [countedList, recordedValues]
    omega
  refine ⟨hH2, hB2, hrows, hlen, ?_, ?_, ?_, ?_⟩
  · rw [sum_count_dedup, hlen]
  · rw [hrows]
    exact report_rows_sorted _
  · rw [hrows]
    exact report_rows_freq _
  · intro x hx
    rw [hrows]
    exact report_rows_covers _ x hx

/-- Witness for the amended C2: `k = 3` tune_pair calls on `baseTuner`
recording the distinct values 0, 1, 2 for "p". -/
theorem report_settings_amended_c2_witness :
    (0 < 3 ∧ "p" ∈ baseTuner.params ∧ (∀ q w, baseTuner.valid q w = true) ∧
        baseTuner.bm_settings "p" = [] ∧
        (∀ i j, i < 3 → j < 3 →
          (fun j => (j : Int)) i = (fun j => (j : Int)) j → i = j)) ∧
      C2Statement baseTuner "p" (fun j => (j : Int)) 3 :=
  ⟨⟨by decide, by decide, fun _ _ => rfl, rfl,
    fun i j _ _ h => by
      have h2 : (i : Int) = (j : Int) := h
      exact_mod_cast h2⟩,
   report_settings_amended_c2 baseTuner "p" (fun j => (j : Int)) 3 (by decide) (by decide)
     (fun _ _ => rfl) rfl (fun i j _ _ h => by
       have h2 : (i : Int) = (j : Int) := h
       exact_mod_cast h2)⟩

end SV
